import Mathlib

/-! Verification of the missionaries-and-cannibals solver (src/main.rs).

The Rust program is shallowly embedded:

* `i64` counters become `Int`.  For the non-negative puzzle inputs the
  claims quantify over, every intermediate value computed by `solve`
  stays inside the interval `[0, max totals capacity]` (the boat loads
  are clamped to the departure bank and to the capacity), so `i64`
  arithmetic never wraps and `Int` is an exact model.
* the `HashMap<State, Vec<BoatMovement>>` becomes a function
  `State → Option (List BoatMovement)`; the program only uses
  `get`, `contains_key` and `insert`, so iteration order is irrelevant.
* the two frontier containers become explicit `push` / `pop` functions
  on `List State`.  `Vec<State>` pushes and pops at the same end,
  modelled with the most recently pushed element at the head.
  For `BinaryHeap<State>`, the sift operations of the Rust standard
  library compare elements with `<=` / `>=`, i.e. with the manual
  `PartialOrd` impl of `State`, which orders states by
  `score (cannibals_left + missionaries_left)` reversed; the heap is
  therefore a max-heap for the reversed-score order and `pop` always
  returns an element of minimal score.  Which minimal-score element is
  returned on a tie is implementation defined; it is modelled here as
  the first minimal-score element of the list.  (The derived `Ord` of
  `State` is lexicographic and inconsistent with this `PartialOrd`, but
  `BinaryHeap` never calls `Ord::cmp` in `push`/`pop`.)
* the `while !queue.is_empty() { let s = queue.pop().unwrap(); … }`
  loop becomes a fuel-indexed recursion `solveLoop`; for both
  containers `pop` returns `none` exactly on the empty frontier, and a
  theorem below shows the fuel `fuelBound` suffices for all
  non-negative inputs, so on that domain the embedding computes exactly
  what the (always terminating) Rust loop computes.
-/

structure State where
  cannibals_left : Int
  missionaries_left : Int
  boat_left : Bool
  deriving DecidableEq, Repr

structure BoatMovement where
  cannibals_boat : Int
  missionaries_boat : Int
  move_right : Bool
  deriving DecidableEq, Repr

def score (cannibals_left missionaries_left : Int) : Int :=
  cannibals_left + missionaries_left

structure ValidateCannibalMissionaryBalanceProp where
  cannibals_left : Int
  missionaries_left : Int
  cannibals_right : Int
  missionaries_right : Int
  cannibals_boat : Int
  missionaries_boat : Int

def validate_cannibal_missionary_balance (prop : ValidateCannibalMissionaryBalanceProp) : Bool :=
  let left_side_balance :=
    decide (prop.cannibals_left ≤ prop.missionaries_left) || (prop.missionaries_left == 0)
  let right_side_balance :=
    decide (prop.cannibals_right ≤ prop.missionaries_right) || (prop.missionaries_right == 0)
  let boat_balance :=
    decide (prop.cannibals_boat ≤ prop.missionaries_boat) || (prop.missionaries_boat == 0)
  left_side_balance && right_side_balance && boat_balance

def update_counts (left right boat : Int) (boat_left : Bool) : Int × Int :=
  if boat_left then (left - boat, right + boat) else (left + boat, right - boat)

/-- The inclusive Rust range `0..=hi` over `i64`, as a list (empty when `hi < 0`). -/
def intRange (hi : Int) : List Int :=
  (List.range (hi + 1).toNat).map (fun (i : Nat) => (i : Int))

/-- The visited map `HashMap<State, Vec<BoatMovement>>`. -/
def Hist : Type := State → Option (List BoatMovement)

def emptyHist : Hist := fun _ => none

/-- The history recorded for `s`, or the empty history when `s` is absent
(the `match history.get(&state) { Some(v) => v.clone(), None => Vec::new() }`
of the source, as a named function for the proofs below). -/
def histOf (hist : Hist) (s : State) : List BoatMovement :=
  match hist s with
  | some value => value
  | none => []

/-- The goal test of the search loop. -/
def goalTest (s : State) : Bool :=
  s.cannibals_left == 0 && s.missionaries_left == 0 && !s.boat_left

def max_cannibals_on_boat (cannibals_num boat_capacity : Int) (s : State) : Int :=
  if s.boat_left then min boat_capacity s.cannibals_left
  else min boat_capacity (cannibals_num - s.cannibals_left)

def max_missionaries_on_boat (missionaries_num boat_capacity : Int) (s : State)
    (cannibals_boat : Int) : Int :=
  if s.boat_left then min (boat_capacity - cannibals_boat) s.missionaries_left
  else min (boat_capacity - cannibals_boat) (missionaries_num - s.missionaries_left)

/-- All candidate loads enumerated by the nested `for` loops, in order. -/
def boatLoads (cannibals_num missionaries_num boat_capacity : Int) (s : State) :
    List (Int × Int) :=
  (intRange (max_cannibals_on_boat cannibals_num boat_capacity s)).flatMap fun cb =>
    (intRange (max_missionaries_on_boat missionaries_num boat_capacity s cb)).map fun mb =>
      (cb, mb)

/-- Body of the nested candidate loops: possibly record the successor in the
visited map and emit it for pushing onto the frontier. -/
def stepBody (cannibals_num missionaries_num : Int) (s : State)
    (acc : Hist × List State) (load : Int × Int) : Hist × List State :=
  let hist := acc.1
  let pushes := acc.2
  let cannibals_boat := load.1
  let missionaries_boat := load.2
  if cannibals_boat + missionaries_boat = 0 then acc
  else
    let cannibals_right := cannibals_num - s.cannibals_left
    let missionaries_right := missionaries_num - s.missionaries_left
    let nc := update_counts s.cannibals_left cannibals_right cannibals_boat s.boat_left
    let nm := update_counts s.missionaries_left missionaries_right missionaries_boat s.boat_left
    if validate_cannibal_missionary_balance
        ⟨nc.1, nm.1, nc.2, nm.2, cannibals_boat, missionaries_boat⟩ = false then acc
    else
      let next_state : State := ⟨nc.1, nm.1, !s.boat_left⟩
      if (hist next_state).isSome then acc
      else
        let next_history :=
          (match hist s with
            | some value => value
            | none => []) ++ [⟨cannibals_boat, missionaries_boat, s.boat_left⟩]
        (fun t => if t = next_state then some next_history else hist t,
          pushes ++ [next_state])

/-- One expansion of a popped state: fold the loop body over all candidate loads. -/
def expandState (cannibals_num missionaries_num boat_capacity : Int) (s : State)
    (hist : Hist) : Hist × List State :=
  (boatLoads cannibals_num missionaries_num boat_capacity s).foldl
    (stepBody cannibals_num missionaries_num s) (hist, [])

/-- The `while` loop of `solve`, with explicit fuel; `none` means the fuel ran
out (which the termination theorem below excludes for the actual fuel used). -/
def solveLoop (push : List State → State → List State)
    (pop : List State → Option (State × List State))
    (cannibals_num missionaries_num boat_capacity : Int) :
    Nat → Hist → List State → Option (Option (List BoatMovement))
  | 0, _, _ => none
  | fuel + 1, hist, queue =>
    match pop queue with
    | none => some none
    | some (s, rest) =>
      if goalTest s then some (hist s)
      else
        let ex := expandState cannibals_num missionaries_num boat_capacity s hist
        solveLoop push pop cannibals_num missionaries_num boat_capacity fuel ex.1
          (ex.2.foldl push rest)

def initState (cannibals_num missionaries_num : Int) : State :=
  ⟨cannibals_num, missionaries_num, true⟩

def goalState : State := ⟨0, 0, false⟩

/-- Fuel that the termination proof shows to be sufficient: the search space
holds at most `2*(c+1)*(m+1)` distinct configurations. -/
def fuelBound (cannibals_num missionaries_num : Int) : Nat :=
  4 * ((cannibals_num.toNat + 1) * (missionaries_num.toNat + 1)) + 2

def solveWith (push : List State → State → List State)
    (pop : List State → Option (State × List State))
    (cannibals_num missionaries_num boat_capacity : Int) : Option (List BoatMovement) :=
  Option.join (solveLoop push pop cannibals_num missionaries_num boat_capacity
    (fuelBound cannibals_num missionaries_num) emptyHist
    (push [] (initState cannibals_num missionaries_num)))

def stackPush (queue : List State) (s : State) : List State := s :: queue

def stackPop : List State → Option (State × List State)
  | [] => none
  | s :: rest => some (s, rest)

def heapPush (queue : List State) (s : State) : List State := queue ++ [s]

/-- Pop of `BinaryHeap<State>`: an element of minimal `score` (see the module
comment); ties go to the earliest such element in our list representation. -/
def heapPop : List State → Option (State × List State)
  | [] => none
  | s :: rest =>
    match heapPop rest with
    | none => some (s, [])
    | some (t, rest2) =>
      if score s.cannibals_left s.missionaries_left ≤ score t.cannibals_left t.missionaries_left
      then some (s, rest) else some (t, s :: rest2)

/-- `solve::<Vec<State>>`. -/
def solveStack (cannibals_num missionaries_num boat_capacity : Int) :
    Option (List BoatMovement) :=
  solveWith stackPush stackPop cannibals_num missionaries_num boat_capacity

/-- `solve::<BinaryHeap<State>>`. -/
def solveHeap (cannibals_num missionaries_num boat_capacity : Int) :
    Option (List BoatMovement) :=
  solveWith heapPush heapPop cannibals_num missionaries_num boat_capacity

/- Replay semantics, following the spec text: apply each move in order,
subtracting the aboard counts from the departure bank (per the move's
direction), adding them to the arrival bank, and flipping the boat flag. -/

def moveStep (s : State) (mv : BoatMovement) : State :=
  if mv.move_right then
    ⟨s.cannibals_left - mv.cannibals_boat, s.missionaries_left - mv.missionaries_boat,
      !s.boat_left⟩
  else
    ⟨s.cannibals_left + mv.cannibals_boat, s.missionaries_left + mv.missionaries_boat,
      !s.boat_left⟩

/-- Safety of a replayed configuration `t` (reached by move `mv`): the left
bank, the derived right bank and the boat load pass the safety predicate. -/
def moveSafe (cannibals_num missionaries_num : Int) (t : State) (mv : BoatMovement) : Bool :=
  validate_cannibal_missionary_balance
    ⟨t.cannibals_left, t.missionaries_left, cannibals_num - t.cannibals_left,
      missionaries_num - t.missionaries_left, mv.cannibals_boat, mv.missionaries_boat⟩

/-- The sequence of configurations produced by replaying a path, each paired
with the move that produced it. -/
def replayStates (s : State) : List BoatMovement → List (State × BoatMovement)
  | [] => []
  | mv :: rest => (moveStep s mv, mv) :: replayStates (moveStep s mv) rest

def replayFinal (s : State) (p : List BoatMovement) : State := p.foldl moveStep s

/-- Spec-level legality of one boat trip (the refinement side of claim C2):
the trip departs from the bank the boat is on, carries at least one and at
most `boat_capacity` people, never more than the departure bank holds of each
role, and the resulting configuration together with the load is safe. -/
def legalMove (cannibals_num missionaries_num boat_capacity : Int) (s : State)
    (mv : BoatMovement) : Bool :=
  (mv.move_right == s.boat_left) &&
  decide (0 ≤ mv.cannibals_boat) && decide (0 ≤ mv.missionaries_boat) &&
  decide (1 ≤ mv.cannibals_boat + mv.missionaries_boat) &&
  decide (mv.cannibals_boat + mv.missionaries_boat ≤ boat_capacity) &&
  decide (mv.cannibals_boat ≤
    (if s.boat_left then s.cannibals_left else cannibals_num - s.cannibals_left)) &&
  decide (mv.missionaries_boat ≤
    (if s.boat_left then s.missionaries_left else missionaries_num - s.missionaries_left)) &&
  moveSafe cannibals_num missionaries_num (moveStep s mv) mv

/-- Replay a path checking every trip legal; returns the final configuration. -/
def replayLegal (cannibals_num missionaries_num boat_capacity : Int) :
    State → List BoatMovement → Option State
  | s, [] => some s
  | s, mv :: rest =>
    if legalMove cannibals_num missionaries_num boat_capacity s mv
    then replayLegal cannibals_num missionaries_num boat_capacity (moveStep s mv) rest
    else none

/-- Spec-level solvability: some finite sequence of legal boat trips moves
everyone from the initial configuration to the goal configuration. -/
def Solvable (cannibals_num missionaries_num boat_capacity : Int) : Prop :=
  ∃ p, replayLegal cannibals_num missionaries_num boat_capacity
    (initState cannibals_num missionaries_num) p = some goalState

/-- State bounds preserved by the search: both left-bank counts stay inside
the puzzle totals. -/
def inU (cannibals_num missionaries_num : Int) (s : State) : Prop :=
  0 ≤ s.cannibals_left ∧ s.cannibals_left ≤ cannibals_num ∧
    0 ≤ s.missionaries_left ∧ s.missionaries_left ≤ missionaries_num

instance (c m : Int) (s : State) : Decidable (inU c m s) := by
  unfold inU; infer_instance

/-- The successor state produced by the loop body for a given load. -/
def nextStateOf (cannibals_num missionaries_num : Int) (s : State) (load : Int × Int) :
    State :=
  ⟨(update_counts s.cannibals_left (cannibals_num - s.cannibals_left) load.1 s.boat_left).1,
    (update_counts s.missionaries_left (missionaries_num - s.missionaries_left) load.2
      s.boat_left).1,
    !s.boat_left⟩

/-- The guards of the loop body that do not involve the visited map: the load
is non-empty and the resulting configuration passes the safety predicate. -/
def loadOk (cannibals_num missionaries_num : Int) (s : State) (load : Int × Int) : Bool :=
  !(load.1 + load.2 == 0) &&
    validate_cannibal_missionary_balance
      ⟨(update_counts s.cannibals_left (cannibals_num - s.cannibals_left) load.1 s.boat_left).1,
        (update_counts s.missionaries_left (missionaries_num - s.missionaries_left) load.2
          s.boat_left).1,
        (update_counts s.cannibals_left (cannibals_num - s.cannibals_left) load.1 s.boat_left).2,
        (update_counts s.missionaries_left (missionaries_num - s.missionaries_left) load.2
          s.boat_left).2,
        load.1, load.2⟩

/-- A sample visited map with one recorded configuration, used to exhibit the
preservation property on a concrete search step. -/
def c7Hist : Hist := fun t => if t = goalState then some [] else none

/-- Soundness invariant of the visited map: every recorded history legally
replays from the initial configuration to its key. -/
def HistSound (cannibals_num missionaries_num boat_capacity : Int) (hist : Hist) : Prop :=
  ∀ t p, hist t = some p →
    replayLegal cannibals_num missionaries_num boat_capacity
      (initState cannibals_num missionaries_num) p = some t

/-- Frontier invariant: every queued configuration is the initial one or is
recorded in the visited map, and lies in the bounded universe. -/
def QueueInv (cannibals_num missionaries_num : Int) (hist : Hist) (queue : List State) :
    Prop :=
  ∀ t ∈ queue, (t = initState cannibals_num missionaries_num ∨ (hist t).isSome = true) ∧
    inU cannibals_num missionaries_num t

/-- Exhaustiveness invariant: every discovered configuration is still on the
frontier or has been fully expanded (it is not the goal and all its legal
successors are discovered). -/
def ClosedInv (cannibals_num missionaries_num boat_capacity : Int) (hist : Hist)
    (queue : List State) : Prop :=
  ∀ t, ((hist t).isSome = true ∨ t = initState cannibals_num missionaries_num) →
    t ∈ queue ∨ (goalTest t = false ∧
      ∀ mv, legalMove cannibals_num missionaries_num boat_capacity t mv = true →
        (hist (moveStep t mv)).isSome = true)

/-- Direction flags alternate along a path, starting with `b`. -/
def alternatesFrom (b : Bool) : List BoatMovement → Bool
  | [] => true
  | mv :: rest => (mv.move_right == b) && alternatesFrom (!b) rest

/-- The finite universe of configurations whose left-bank counts lie inside
the puzzle totals: every configuration the search handles is in it. -/
def statesUniv (cannibals_num missionaries_num : Int) : Finset State :=
  ((Finset.range (cannibals_num.toNat + 1)) ×ˢ (Finset.range (missionaries_num.toNat + 1)) ×ˢ
      (Finset.univ : Finset Bool)).image
    fun x => ⟨(x.1 : Int), (x.2.1 : Int), x.2.2⟩

/-- Number of in-universe configurations not yet recorded in the visited map;
the termination measure decreases with every insertion. -/
def freeCount (cannibals_num missionaries_num : Int) (hist : Hist) : Nat :=
  ((statesUniv cannibals_num missionaries_num).filter fun t => hist t = none).card

/-- One iteration of the search loop on a non-goal popped state, as a relation
on (visited map, frontier) pairs. -/
def SearchStep (push : List State → State → List State)
    (pop : List State → Option (State × List State))
    (cannibals_num missionaries_num boat_capacity : Int) :
    Hist × List State → Hist × List State → Prop :=
  fun cur next =>
    ∃ s rest, pop cur.2 = some (s, rest) ∧ goalTest s = false ∧
      next = ((expandState cannibals_num missionaries_num boat_capacity s cur.1).1,
        (expandState cannibals_num missionaries_num boat_capacity s cur.1).2.foldl push rest)

theorem validate_iff (prop : ValidateCannibalMissionaryBalanceProp) :
    validate_cannibal_missionary_balance prop = true ↔
      ((prop.cannibals_left ≤ prop.missionaries_left ∨ prop.missionaries_left = 0) ∧
        (prop.cannibals_right ≤ prop.missionaries_right ∨ prop.missionaries_right = 0) ∧
        (prop.cannibals_boat ≤ prop.missionaries_boat ∨ prop.missionaries_boat = 0)) := by
  simp [validate_cannibal_missionary_balance, and_assoc]

theorem heapPop_eq_none {q : List State} (h : heapPop q = none) : q = [] := by
  cases q with
  | nil => rfl
  | cons s rest =>
    exfalso
    cases hrec : heapPop rest with
    | none => simp [heapPop, hrec] at h
    | some pr => simp [heapPop, hrec] at h; split at h <;> simp at h

theorem heapPop_perm : ∀ {q : List State} {s : State} {q2 : List State},
    heapPop q = some (s, q2) → q.Perm (s :: q2) := by
  intro q
  induction q with
  | nil => intro s q2 h; simp [heapPop] at h
  | cons a rest ih =>
    intro s q2 h
    cases hrec : heapPop rest with
    | none =>
      have hr : rest = [] := heapPop_eq_none hrec
      subst hr
      simp [heapPop] at h
      obtain ⟨rfl, rfl⟩ := h
      exact List.Perm.refl _
    | some pr =>
      obtain ⟨t, rest2⟩ := pr
      have hperm : rest.Perm (t :: rest2) := ih hrec
      simp only [heapPop, hrec] at h
      split at h
      · simp only [Option.some.injEq, Prod.mk.injEq] at h
        obtain ⟨h1, h2⟩ := h
        rw [← h1, ← h2]
      · simp only [Option.some.injEq, Prod.mk.injEq] at h
        obtain ⟨h1, h2⟩ := h
        rw [← h1, ← h2]
        exact (hperm.cons a).trans (List.Perm.swap t a rest2)

theorem heapPop_min : ∀ {q : List State} {s : State} {q2 : List State},
    heapPop q = some (s, q2) →
    ∀ t ∈ q, score s.cannibals_left s.missionaries_left ≤
      score t.cannibals_left t.missionaries_left := by
  intro q
  induction q with
  | nil => intro s q2 h; simp [heapPop] at h
  | cons a rest ih =>
    intro s q2 h t ht
    cases hrec : heapPop rest with
    | none =>
      have hr : rest = [] := heapPop_eq_none hrec
      subst hr
      simp [heapPop] at h
      obtain ⟨rfl, rfl⟩ := h
      simp at ht
      subst ht
      exact le_refl _
    | some pr =>
      obtain ⟨u, rest2⟩ := pr
      simp only [heapPop, hrec] at h
      rcases List.mem_cons.1 ht with rfl | htr
      · split at h <;> simp only [Option.some.injEq, Prod.mk.injEq] at h <;>
          obtain ⟨rfl, rfl⟩ := h
        · exact le_refl _
        · next hlt => exact le_of_not_le hlt
      · split at h <;> simp only [Option.some.injEq, Prod.mk.injEq] at h <;>
          obtain ⟨rfl, rfl⟩ := h
        · next hle => exact le_trans hle (ih hrec t htr)
        · exact ih hrec t htr

theorem mem_intRange {hi a : Int} : a ∈ intRange hi ↔ 0 ≤ a ∧ a ≤ hi := by
  simp only [intRange, List.mem_map, List.mem_range]
  constructor
  · rintro ⟨i, hlt, rfl⟩
    omega
  · rintro ⟨h0, h1⟩
    exact ⟨a.toNat, by omega, by omega⟩

theorem mem_boatLoads {c m k : Int} {s : State} {cb mb : Int} :
    (cb, mb) ∈ boatLoads c m k s ↔
      0 ≤ cb ∧ cb ≤ max_cannibals_on_boat c k s ∧
        0 ≤ mb ∧ mb ≤ max_missionaries_on_boat m k s cb := by
  simp only [boatLoads, List.mem_flatMap, List.mem_map, mem_intRange, Prod.mk.injEq]
  constructor
  · rintro ⟨a, ⟨ha0, ha1⟩, b, ⟨hb0, hb1⟩, rfl, rfl⟩
    exact ⟨ha0, ha1, hb0, hb1⟩
  · rintro ⟨h1, h2, h3, h4⟩
    exact ⟨cb, ⟨h1, h2⟩, mb, ⟨h3, h4⟩, rfl, rfl⟩

theorem stepBody_eq (c m : Int) (s : State) (acc : Hist × List State) (load : Int × Int) :
    stepBody c m s acc load =
      if loadOk c m s load = true ∧ acc.1 (nextStateOf c m s load) = none then
        (fun t => if t = nextStateOf c m s load then
            some (histOf acc.1 s ++ [⟨load.1, load.2, s.boat_left⟩])
          else acc.1 t,
          acc.2 ++ [nextStateOf c m s load])
      else acc := by
  by_cases h0 : load.1 + load.2 = 0
  · have hL : loadOk c m s load = false := by simp [loadOk, h0]
    rw [hL]
    simp [stepBody, h0]
  · by_cases h1 : loadOk c m s load = true
    · have hv : validate_cannibal_missionary_balance
          ⟨(update_counts s.cannibals_left (c - s.cannibals_left) load.1 s.boat_left).1,
            (update_counts s.missionaries_left (m - s.missionaries_left) load.2 s.boat_left).1,
            (update_counts s.cannibals_left (c - s.cannibals_left) load.1 s.boat_left).2,
            (update_counts s.missionaries_left (m - s.missionaries_left) load.2 s.boat_left).2,
            load.1, load.2⟩ = true := by
        simpa [loadOk, h0] using h1
      by_cases h2 : acc.1 (nextStateOf c m s load) = none
      · cases hhs : acc.1 s with
        | none =>
          simp only [stepBody, h0, if_false, hv, Bool.true_eq_false, nextStateOf] at *
          simp [h1, h2, nextStateOf, histOf, hhs]
        | some v =>
          simp only [stepBody, h0, if_false, hv, Bool.true_eq_false, nextStateOf] at *
          simp [h1, h2, nextStateOf, histOf, hhs]
      · simp only [stepBody, h0, if_false, hv, Bool.true_eq_false, nextStateOf] at *
        simp [h1, h2, nextStateOf, Option.isSome_iff_ne_none]
    · rcases Bool.eq_false_or_eq_true (validate_cannibal_missionary_balance
          ⟨(update_counts s.cannibals_left (c - s.cannibals_left) load.1 s.boat_left).1,
            (update_counts s.missionaries_left (m - s.missionaries_left) load.2 s.boat_left).1,
            (update_counts s.cannibals_left (c - s.cannibals_left) load.1 s.boat_left).2,
            (update_counts s.missionaries_left (m - s.missionaries_left) load.2 s.boat_left).2,
            load.1, load.2⟩) with hv | hv
      · exfalso; apply h1; simp [loadOk, h0, hv]
      · simp [stepBody, h0, hv, h1]

theorem nextStateOf_ne_self (c m : Int) (s : State) (load : Int × Int) :
    s ≠ nextStateOf c m s load := by
  intro h
  have hb : s.boat_left = !s.boat_left := congrArg State.boat_left h
  simp at hb

theorem stepBody_hist_s (c m : Int) (s : State) (acc : Hist × List State) (load : Int × Int) :
    (stepBody c m s acc load).1 s = acc.1 s := by
  rw [stepBody_eq]
  split
  · dsimp only
    rw [if_neg (nextStateOf_ne_self c m s load)]
  · rfl

theorem stepBody_mono {c m : Int} {s : State} {acc : Hist × List State} {load : Int × Int}
    {t : State} {p : List BoatMovement} (h : acc.1 t = some p) :
    (stepBody c m s acc load).1 t = some p := by
  rw [stepBody_eq]
  split
  · next hc =>
    dsimp only
    by_cases ht : t = nextStateOf c m s load
    · rw [ht] at h; rw [hc.2] at h; cases h
    · rw [if_neg ht]; exact h
  · exact h

theorem stepBody_isSome_mono {c m : Int} {s : State} {acc : Hist × List State}
    {load : Int × Int} {t : State} (h : (acc.1 t).isSome = true) :
    ((stepBody c m s acc load).1 t).isSome = true := by
  rw [Option.isSome_iff_exists] at h
  obtain ⟨p, hp⟩ := h
  rw [stepBody_mono hp]
  rfl

theorem stepBody_fst_cases {c m : Int} {s : State} {acc : Hist × List State}
    {load : Int × Int} {t : State} {p : List BoatMovement}
    (h : (stepBody c m s acc load).1 t = some p) :
    acc.1 t = some p ∨
      (loadOk c m s load = true ∧ acc.1 t = none ∧ t = nextStateOf c m s load ∧
        p = histOf acc.1 s ++ [⟨load.1, load.2, s.boat_left⟩]) := by
  rw [stepBody_eq] at h
  split at h
  · next hc =>
    dsimp only at h
    by_cases ht : t = nextStateOf c m s load
    · rw [if_pos ht] at h
      right
      refine ⟨hc.1, ?_, ht, (Option.some_inj.mp h).symm⟩
      rw [ht]; exact hc.2
    · rw [if_neg ht] at h; exact Or.inl h
  · exact Or.inl h

theorem stepBody_snd (c m : Int) (s : State) (acc : Hist × List State) (load : Int × Int) :
    (stepBody c m s acc load).2 = acc.2 ∨
      ((stepBody c m s acc load).2 = acc.2 ++ [nextStateOf c m s load] ∧
        loadOk c m s load = true ∧
        acc.1 (nextStateOf c m s load) = none ∧
        ((stepBody c m s acc load).1 (nextStateOf c m s load)).isSome = true) := by
  rw [stepBody_eq]
  split
  · next hc =>
    right
    refine ⟨rfl, hc.1, hc.2, ?_⟩
    dsimp only
    rw [if_pos rfl]
    rfl
  · exact Or.inl rfl

theorem stepBody_complete {c m : Int} {s : State} {acc : Hist × List State}
    {load : Int × Int} (h : loadOk c m s load = true) :
    ((stepBody c m s acc load).1 (nextStateOf c m s load)).isSome = true := by
  rw [stepBody_eq]
  split
  · dsimp only; rw [if_pos rfl]; rfl
  · next hc =>
    rcases Option.eq_none_or_eq_some (acc.1 (nextStateOf c m s load)) with hn | hv
    · exact absurd ⟨h, hn⟩ hc
    · obtain ⟨v, hv⟩ := hv
      rw [hv]
      rfl

theorem stepBody_new_mem {c m : Int} {s : State} {acc : Hist × List State}
    {load : Int × Int} {t : State}
    (h : ((stepBody c m s acc load).1 t).isSome = true)
    (hn : acc.1 t = none) : t ∈ (stepBody c m s acc load).2 := by
  rw [stepBody_eq] at h ⊢
  by_cases hc : loadOk c m s load = true ∧ acc.1 (nextStateOf c m s load) = none
  · rw [if_pos hc] at h ⊢
    dsimp only at h ⊢
    by_cases ht : t = nextStateOf c m s load
    · rw [ht]; exact List.mem_append_right _ (List.mem_singleton.mpr rfl)
    · rw [if_neg ht, hn] at h; simp at h
  · rw [if_neg hc, hn] at h; simp at h

theorem histOf_congr {h1 h2 : Hist} {s : State} (h : h1 s = h2 s) :
    histOf h1 s = histOf h2 s := by
  unfold histOf
  rw [h]

theorem foldl_stepBody_mono {c m : Int} {s : State} :
    ∀ (ls : List (Int × Int)) (acc : Hist × List State) {t : State} {p : List BoatMovement},
      acc.1 t = some p → (ls.foldl (stepBody c m s) acc).1 t = some p := by
  intro ls
  induction ls with
  | nil => intro acc t p h; exact h
  | cons l ls ih => intro acc t p h; exact ih _ (stepBody_mono h)

theorem foldl_stepBody_isSome_mono {c m : Int} {s : State} :
    ∀ (ls : List (Int × Int)) (acc : Hist × List State) {t : State},
      (acc.1 t).isSome = true → ((ls.foldl (stepBody c m s) acc).1 t).isSome = true := by
  intro ls acc t h
  rw [Option.isSome_iff_exists] at h
  obtain ⟨p, hp⟩ := h
  rw [foldl_stepBody_mono ls acc hp]
  rfl

theorem foldl_stepBody_hist_s {c m : Int} {s : State} :
    ∀ (ls : List (Int × Int)) (acc : Hist × List State),
      (ls.foldl (stepBody c m s) acc).1 s = acc.1 s := by
  intro ls
  induction ls with
  | nil => intro acc; rfl
  | cons l ls ih => intro acc; rw [List.foldl_cons, ih, stepBody_hist_s]

theorem foldl_stepBody_fst_cases {c m : Int} {s : State} :
    ∀ (ls : List (Int × Int)) (acc : Hist × List State) {t : State} {p : List BoatMovement},
      (ls.foldl (stepBody c m s) acc).1 t = some p →
      acc.1 t = some p ∨
        ∃ load ∈ ls, loadOk c m s load = true ∧ t = nextStateOf c m s load ∧
          p = histOf acc.1 s ++ [⟨load.1, load.2, s.boat_left⟩] := by
  intro ls
  induction ls with
  | nil => intro acc t p h; exact Or.inl h
  | cons l ls ih =>
    intro acc t p h
    rcases ih _ h with hacc | ⟨load, hmem, hok, ht, hp⟩
    · rcases stepBody_fst_cases hacc with h1 | ⟨hok, hnone, ht, hp⟩
      · exact Or.inl h1
      · exact Or.inr ⟨l, List.mem_cons_self l ls, hok, ht, hp⟩
    · right
      rw [histOf_congr (stepBody_hist_s c m s acc l)] at hp
      exact ⟨load, List.mem_cons_of_mem _ hmem, hok, ht, hp⟩

theorem foldl_stepBody_pushes_mono {c m : Int} {s : State} :
    ∀ (ls : List (Int × Int)) (acc : Hist × List State) {t : State},
      t ∈ acc.2 → t ∈ (ls.foldl (stepBody c m s) acc).2 := by
  intro ls
  induction ls with
  | nil => intro acc t h; exact h
  | cons l ls ih =>
    intro acc t h
    apply ih
    rcases stepBody_snd c m s acc l with h2 | ⟨h2, _, _, _⟩
    · rw [h2]; exact h
    · rw [h2]; exact List.mem_append_left _ h

theorem foldl_stepBody_pushes_recorded {c m : Int} {s : State} :
    ∀ (ls : List (Int × Int)) (acc : Hist × List State),
      (∀ t ∈ acc.2, (acc.1 t).isSome = true) →
      ∀ t ∈ (ls.foldl (stepBody c m s) acc).2,
        ((ls.foldl (stepBody c m s) acc).1 t).isSome = true := by
  intro ls
  induction ls with
  | nil => intro acc h t ht; exact h t ht
  | cons l ls ih =>
    intro acc h t ht
    refine ih (stepBody c m s acc l) ?_ t ht
    intro u hu
    rcases stepBody_snd c m s acc l with h2 | ⟨h2, _, _, hsome⟩
    · rw [h2] at hu; exact stepBody_isSome_mono (h u hu)
    · rw [h2] at hu
      rcases List.mem_append.1 hu with hu | hu
      · exact stepBody_isSome_mono (h u hu)
      · rw [List.mem_singleton.1 hu]; exact hsome

theorem foldl_stepBody_pushes_fresh {c m : Int} {s : State} :
    ∀ (ls : List (Int × Int)) (acc : Hist × List State) {t : State},
      t ∈ (ls.foldl (stepBody c m s) acc).2 → t ∈ acc.2 ∨ acc.1 t = none := by
  intro ls
  induction ls with
  | nil => intro acc t h; exact Or.inl h
  | cons l ls ih =>
    intro acc t h
    rcases ih _ h with hmem | hnone
    · rcases stepBody_snd c m s acc l with h2 | ⟨h2, _, hnone2, _⟩
      · rw [h2] at hmem; exact Or.inl hmem
      · rw [h2] at hmem
        rcases List.mem_append.1 hmem with hm | hm
        · exact Or.inl hm
        · rw [List.mem_singleton.1 hm]; exact Or.inr hnone2
    · rcases Option.eq_none_or_eq_some (acc.1 t) with hn | hv
      · exact Or.inr hn
      · obtain ⟨v, hv⟩ := hv
        rw [stepBody_mono hv] at hnone
        cases hnone

theorem foldl_stepBody_new_mem {c m : Int} {s : State} :
    ∀ (ls : List (Int × Int)) (acc : Hist × List State) {t : State},
      ((ls.foldl (stepBody c m s) acc).1 t).isSome = true →
      (acc.1 t).isSome = true ∨ t ∈ (ls.foldl (stepBody c m s) acc).2 := by
  intro ls
  induction ls with
  | nil => intro acc t h; exact Or.inl h
  | cons l ls ih =>
    intro acc t h
    rcases ih _ h with hsome | hmem
    · rcases Option.eq_none_or_eq_some (acc.1 t) with hn | hv
      · right
        exact foldl_stepBody_pushes_mono ls _ (stepBody_new_mem hsome hn)
      · obtain ⟨v, hv⟩ := hv
        left; rw [hv]; rfl
    · exact Or.inr hmem

theorem foldl_stepBody_complete {c m : Int} {s : State} :
    ∀ (ls : List (Int × Int)) (acc : Hist × List State) {load : Int × Int},
      load ∈ ls → loadOk c m s load = true →
      ((ls.foldl (stepBody c m s) acc).1 (nextStateOf c m s load)).isSome = true := by
  intro ls
  induction ls with
  | nil => intro acc load h; cases h
  | cons l ls ih =>
    intro acc load hmem hok
    rcases List.mem_cons.1 hmem with rfl | hmem
    · exact foldl_stepBody_isSome_mono ls _ (stepBody_complete hok)
    · exact ih _ hmem hok

theorem nextStateOf_eq_moveStep (c m : Int) (s : State) (load : Int × Int) :
    nextStateOf c m s load = moveStep s ⟨load.1, load.2, s.boat_left⟩ := by
  cases hb : s.boat_left <;> simp [nextStateOf, moveStep, update_counts, hb]

theorem nextStateOf_inU {c m k : Int} {s : State} {load : Int × Int}
    (hU : inU c m s) (hmem : load ∈ boatLoads c m k s) :
    inU c m (nextStateOf c m s load) := by
  obtain ⟨cb, mb⟩ := load
  obtain ⟨scl, sml, sb⟩ := s
  rw [mem_boatLoads] at hmem
  obtain ⟨hU1, hU2, hU3, hU4⟩ := hU
  obtain ⟨h1, h2, h3, h4⟩ := hmem
  simp only at hU1 hU2 hU3 hU4
  cases sb
  all_goals
    simp [nextStateOf, update_counts, inU, max_cannibals_on_boat,
      max_missionaries_on_boat, le_min_iff] at h2 h4 ⊢
  all_goals omega

theorem loadOk_mem_iff_legal {c m k : Int} {s : State} (hU : inU c m s) (load : Int × Int) :
    (load ∈ boatLoads c m k s ∧ loadOk c m s load = true) ↔
      legalMove c m k s ⟨load.1, load.2, s.boat_left⟩ = true := by
  obtain ⟨cb, mb⟩ := load
  obtain ⟨scl, sml, sb⟩ := s
  obtain ⟨hU1, hU2, hU3, hU4⟩ := hU
  rw [mem_boatLoads]
  cases sb
  all_goals
    simp [loadOk, legalMove, moveSafe, moveStep, update_counts, validate_iff,
      max_cannibals_on_boat, max_missionaries_on_boat, le_min_iff]
  all_goals constructor
  all_goals intro h
  all_goals omega

theorem legalMove_dir {c m k : Int} {s : State} {mv : BoatMovement}
    (h : legalMove c m k s mv = true) : mv.move_right = s.boat_left := by
  simp only [legalMove, Bool.and_eq_true, beq_iff_eq] at h
  exact h.1.1.1.1.1.1.1

theorem legalMove_iff_load {c m k : Int} {s : State} {mv : BoatMovement} (hU : inU c m s) :
    legalMove c m k s mv = true ↔
      (mv.move_right = s.boat_left ∧
        (mv.cannibals_boat, mv.missionaries_boat) ∈ boatLoads c m k s ∧
        loadOk c m s (mv.cannibals_boat, mv.missionaries_boat) = true) := by
  constructor
  · intro h
    have hdir := legalMove_dir h
    have hmv : mv = ⟨mv.cannibals_boat, mv.missionaries_boat, s.boat_left⟩ := by
      obtain ⟨a, b, r⟩ := mv
      simp only at hdir
      rw [hdir]
    rw [hmv] at h
    have h2 := (loadOk_mem_iff_legal hU (mv.cannibals_boat, mv.missionaries_boat)).mpr h
    exact ⟨hdir, h2.1, h2.2⟩
  · rintro ⟨hdir, hmem, hok⟩
    have h := (loadOk_mem_iff_legal hU (mv.cannibals_boat, mv.missionaries_boat)).mp ⟨hmem, hok⟩
    have hmv : (⟨mv.cannibals_boat, mv.missionaries_boat, s.boat_left⟩ : BoatMovement) = mv := by
      obtain ⟨a, b, r⟩ := mv
      simp only at hdir
      rw [hdir]
    rwa [hmv] at h

theorem legalMove_parts {c m k : Int} {s : State} {mv : BoatMovement}
    (h : legalMove c m k s mv = true) :
    mv.move_right = s.boat_left ∧ 0 ≤ mv.cannibals_boat ∧ 0 ≤ mv.missionaries_boat ∧
      1 ≤ mv.cannibals_boat + mv.missionaries_boat ∧
      mv.cannibals_boat + mv.missionaries_boat ≤ k ∧
      mv.cannibals_boat ≤ (if s.boat_left then s.cannibals_left
        else c - s.cannibals_left) ∧
      mv.missionaries_boat ≤ (if s.boat_left then s.missionaries_left
        else m - s.missionaries_left) ∧
      moveSafe c m (moveStep s mv) mv = true := by
  simp only [legalMove, Bool.and_eq_true, decide_eq_true_eq, beq_iff_eq] at h
  tauto

theorem replayLegal_append (c m k : Int) :
    ∀ (p q : List BoatMovement) (s : State),
      replayLegal c m k s (p ++ q) =
        (replayLegal c m k s p).bind fun u => replayLegal c m k u q := by
  intro p
  induction p with
  | nil => intro q s; simp [replayLegal]
  | cons mv rest ih =>
    intro q s
    simp only [List.cons_append, replayLegal]
    by_cases h : legalMove c m k s mv = true
    · rw [if_pos h, if_pos h]
      exact ih q (moveStep s mv)
    · rw [if_neg h, if_neg h]; rfl

theorem replayLegal_final (c m k : Int) :
    ∀ (p : List BoatMovement) (s t : State),
      replayLegal c m k s p = some t → replayFinal s p = t := by
  intro p
  induction p with
  | nil =>
    intro s t h
    simp only [replayLegal, Option.some_inj] at h
    exact h
  | cons mv rest ih =>
    intro s t h
    simp only [replayLegal] at h
    by_cases hl : legalMove c m k s mv = true
    · rw [if_pos hl] at h
      exact ih (moveStep s mv) t h
    · rw [if_neg hl] at h; cases h

theorem replayLegal_safe (c m k : Int) :
    ∀ (p : List BoatMovement) (s t : State),
      replayLegal c m k s p = some t →
      ∀ x ∈ replayStates s p, moveSafe c m x.1 x.2 = true := by
  intro p
  induction p with
  | nil => intro s t h x hx; simp [replayStates] at hx
  | cons mv rest ih =>
    intro s t h x hx
    simp only [replayLegal] at h
    by_cases hl : legalMove c m k s mv = true
    · rw [if_pos hl] at h
      simp only [replayStates, List.mem_cons] at hx
      rcases hx with rfl | hx
      · exact (legalMove_parts hl).2.2.2.2.2.2.2
      · exact ih (moveStep s mv) t h x hx
    · rw [if_neg hl] at h; cases h

theorem replayLegal_loads (c m k : Int) :
    ∀ (p : List BoatMovement) (s t : State),
      replayLegal c m k s p = some t →
      ∀ mv ∈ p, 0 ≤ mv.cannibals_boat ∧ 0 ≤ mv.missionaries_boat ∧
        1 ≤ mv.cannibals_boat + mv.missionaries_boat ∧
        mv.cannibals_boat + mv.missionaries_boat ≤ k := by
  intro p
  induction p with
  | nil => intro s t h mv hmv; cases hmv
  | cons mv0 rest ih =>
    intro s t h mv hmv
    simp only [replayLegal] at h
    by_cases hl : legalMove c m k s mv0 = true
    · rw [if_pos hl] at h
      rcases List.mem_cons.1 hmv with rfl | hmv
      · obtain ⟨_, h1, h2, h3, h4, _⟩ := legalMove_parts hl
        exact ⟨h1, h2, h3, h4⟩
      · exact ih (moveStep s mv0) t h mv hmv
    · rw [if_neg hl] at h; cases h

theorem replayLegal_alternates (c m k : Int) :
    ∀ (p : List BoatMovement) (s t : State),
      replayLegal c m k s p = some t → alternatesFrom s.boat_left p = true := by
  intro p
  induction p with
  | nil => intro s t h; rfl
  | cons mv rest ih =>
    intro s t h
    simp only [replayLegal] at h
    by_cases hl : legalMove c m k s mv = true
    · rw [if_pos hl] at h
      have hb : (moveStep s mv).boat_left = !s.boat_left := by
        cases hmr : mv.move_right <;> simp [moveStep, hmr]
      have ih2 := ih (moveStep s mv) t h
      rw [hb] at ih2
      simp only [alternatesFrom, Bool.and_eq_true, beq_iff_eq]
      exact ⟨legalMove_dir hl, ih2⟩
    · rw [if_neg hl] at h; cases h

theorem moveStep_boat (s : State) (mv : BoatMovement) :
    (moveStep s mv).boat_left = !s.boat_left := by
  cases hmr : mv.move_right <;> simp [moveStep, hmr]

theorem replayFinal_boat :
    ∀ (p : List BoatMovement) (s : State),
      (replayFinal s p).boat_left =
        if p.length % 2 = 0 then s.boat_left else !s.boat_left := by
  intro p
  induction p with
  | nil => intro s; simp [replayFinal]
  | cons mv rest ih =>
    intro s
    have h1 : replayFinal s (mv :: rest) = replayFinal (moveStep s mv) rest := rfl
    rw [h1, ih (moveStep s mv), moveStep_boat]
    simp only [List.length_cons]
    by_cases hp : rest.length % 2 = 0
    · have hp2 : ¬((rest.length + 1) % 2 = 0) := by omega
      simp [hp, hp2]
    · have hp2 : (rest.length + 1) % 2 = 0 := by omega
      simp [hp, hp2]

theorem replayLegal_concat {c m k : Int} {q : List BoatMovement} {mv : BoatMovement}
    {s t : State} (h : replayLegal c m k s (q ++ [mv]) = some t) :
    ∃ u, replayLegal c m k s q = some u ∧ legalMove c m k u mv = true ∧
      t = moveStep u mv := by
  rw [replayLegal_append] at h
  cases hq : replayLegal c m k s q with
  | none => rw [hq] at h; cases h
  | some u =>
    rw [hq] at h
    simp only [Option.some_bind] at h
    by_cases hl : legalMove c m k u mv = true
    · refine ⟨u, rfl, hl, ?_⟩
      simp only [replayLegal, if_pos hl, Option.some_inj] at h
      exact h.symm
    · simp only [replayLegal, if_neg hl] at h
      cases h

theorem inU_mem_statesUniv {c m : Int} {t : State} (h : inU c m t) :
    t ∈ statesUniv c m := by
  obtain ⟨tc, tm, tb⟩ := t
  obtain ⟨h1, h2, h3, h4⟩ := h
  simp only at h1 h2 h3 h4
  simp only [statesUniv, Finset.mem_image]
  refine ⟨(tc.toNat, tm.toNat, tb), ?_, ?_⟩
  · refine Finset.mem_product.mpr ⟨?_, Finset.mem_product.mpr ⟨?_, Finset.mem_univ _⟩⟩
    · exact Finset.mem_range.mpr (show tc.toNat < c.toNat + 1 by omega)
    · exact Finset.mem_range.mpr (show tm.toNat < m.toNat + 1 by omega)
  · show (⟨(tc.toNat : Int), (tm.toNat : Int), tb⟩ : State) = ⟨tc, tm, tb⟩
    have e1 : (tc.toNat : Int) = tc := by omega
    have e2 : (tm.toNat : Int) = tm := by omega
    rw [e1, e2]

theorem statesUniv_card_le (c m : Int) :
    (statesUniv c m).card ≤ (c.toNat + 1) * (m.toNat + 1) * 2 := by
  unfold statesUniv
  refine le_trans (Finset.card_image_le) ?_
  rw [Finset.card_product, Finset.card_product, Finset.card_range, Finset.card_range,
    Finset.card_univ, Fintype.card_bool]
  ring_nf
  omega

theorem freeCount_insert {c m : Int} (hist : Hist) {x : State} (hx : inU c m x)
    (hnone : hist x = none) (p : List BoatMovement) :
    freeCount c m hist =
      freeCount c m (fun t => if t = x then some p else hist t) + 1 := by
  unfold freeCount
  have hset : ((statesUniv c m).filter fun t => (if t = x then some p else hist t) = none)
      = ((statesUniv c m).filter fun t => hist t = none).erase x := by
    ext u
    simp only [Finset.mem_filter, Finset.mem_erase]
    by_cases hu : u = x
    · subst hu; simp
    · simp only [if_neg hu]
      tauto
  have hmemf : x ∈ (statesUniv c m).filter fun t => hist t = none :=
    Finset.mem_filter.mpr ⟨inU_mem_statesUniv hx, hnone⟩
  rw [hset, Finset.card_erase_of_mem hmemf]
  have hpos : 0 < ((statesUniv c m).filter fun t => hist t = none).card :=
    Finset.card_pos.mpr ⟨x, hmemf⟩
  omega

theorem freeCount_le (c m : Int) (hist : Hist) :
    freeCount c m hist ≤ (c.toNat + 1) * (m.toNat + 1) * 2 :=
  le_trans (Finset.card_filter_le _ _) (statesUniv_card_le c m)

theorem foldl_stepBody_freeCount {c m k : Int} {s : State} (hU : inU c m s) :
    ∀ (ls : List (Int × Int)) (acc : Hist × List State),
      (∀ load ∈ ls, load ∈ boatLoads c m k s) →
      freeCount c m acc.1 + acc.2.length =
        freeCount c m (ls.foldl (stepBody c m s) acc).1 +
          (ls.foldl (stepBody c m s) acc).2.length := by
  intro ls
  induction ls with
  | nil => intro acc h; rfl
  | cons l ls ih =>
    intro acc h
    have hmem : l ∈ boatLoads c m k s := h l (List.mem_cons_self l ls)
    have ih2 := ih (stepBody c m s acc l) (fun load hl => h load (List.mem_cons_of_mem _ hl))
    rw [List.foldl_cons, ← ih2]
    rw [stepBody_eq]
    split
    · next hc =>
      dsimp only
      rw [List.length_append, List.length_singleton,
        freeCount_insert acc.1 (nextStateOf_inU hU hmem) hc.2
          (histOf acc.1 s ++ [⟨l.1, l.2, s.boat_left⟩])]
      omega
    · rfl

theorem stackPop_none {q : List State} (h : stackPop q = none) : q = [] := by
  cases q with
  | nil => rfl
  | cons s rest => simp [stackPop] at h

theorem stackPop_perm {q : List State} {s : State} {q2 : List State}
    (h : stackPop q = some (s, q2)) : q.Perm (s :: q2) := by
  cases q with
  | nil => cases h
  | cons a rest =>
    simp only [stackPop, Option.some_inj, Prod.mk.injEq] at h
    obtain ⟨h1, h2⟩ := h
    rw [h1, h2]

theorem stackPush_perm (q : List State) (s : State) : (stackPush q s).Perm (s :: q) :=
  List.Perm.refl _

theorem heapPush_perm (q : List State) (s : State) : (heapPush q s).Perm (s :: q) :=
  List.perm_append_singleton s q

theorem foldl_push_perm {push : List State → State → List State}
    (hpush : ∀ q s, (push q s).Perm (s :: q)) :
    ∀ (ps q : List State), (ps.foldl push q).Perm (ps ++ q) := by
  intro ps
  induction ps with
  | nil => intro q; simpa using List.Perm.refl q
  | cons a ps ih =>
    intro q
    have h1 := ih (push q a)
    have h2 : (ps ++ push q a).Perm (ps ++ (a :: q)) := (hpush q a).append_left ps
    have h3 : (ps ++ (a :: q)).Perm (a :: (ps ++ q)) := List.perm_middle
    exact (h1.trans h2).trans h3

theorem goalTest_iff {s : State} : goalTest s = true ↔ s = goalState := by
  obtain ⟨a, b, r⟩ := s
  simp [goalTest, goalState, and_assoc]

theorem goalTest_init (c m : Int) : goalTest (initState c m) = false := by
  simp [goalTest, initState]

theorem init_ne_goal (c m : Int) : initState c m ≠ goalState := by
  intro h
  have hb := congrArg State.boat_left h
  simp [initState, goalState] at hb

theorem expand_HistSound {c m k : Int} {s : State} {hist : Hist}
    (hHS : HistSound c m k hist)
    (hsq : s = initState c m ∨ (hist s).isSome = true)
    (hU : inU c m s) :
    HistSound c m k (expandState c m k s hist).1 := by
  intro t p hp
  rcases foldl_stepBody_fst_cases _ _ hp with hold | ⟨load, hmem, hok, ht, hpeq⟩
  · exact hHS t p hold
  · dsimp only at hpeq
    have hlegal : legalMove c m k s ⟨load.1, load.2, s.boat_left⟩ = true :=
      (loadOk_mem_iff_legal hU load).mp ⟨hmem, hok⟩
    cases hhs : hist s with
    | some v =>
      have hprev := hHS s v hhs
      have hpeq2 : p = v ++ [⟨load.1, load.2, s.boat_left⟩] := by
        rw [hpeq]
        unfold histOf
        rw [hhs]
    
      rw [hpeq2, replayLegal_append, hprev]
      simp only [Option.some_bind, replayLegal, if_pos hlegal]
      rw [ht, nextStateOf_eq_moveStep]
    | none =>
      have hs_init : s = initState c m := by
        rcases hsq with h | h
        · exact h
        · rw [hhs] at h; simp at h
      have hpeq2 : p = [⟨load.1, load.2, s.boat_left⟩] := by
        rw [hpeq]
        unfold histOf
        rw [hhs]
        simp
      rw [hpeq2, ← hs_init]
      simp only [replayLegal, if_pos hlegal]
      rw [ht, nextStateOf_eq_moveStep]

theorem expand_QueueInv {c m k : Int} {push : List State → State → List State}
    (hpush : ∀ q s, (push q s).Perm (s :: q))
    {s : State} {hist : Hist} {queue rest : List State}
    (hQ : QueueInv c m hist queue)
    (hperm : queue.Perm (s :: rest))
    (hU : inU c m s) :
    QueueInv c m (expandState c m k s hist).1
      ((expandState c m k s hist).2.foldl push rest) := by
  intro t ht
  have hperm2 := foldl_push_perm hpush (expandState c m k s hist).2 rest
  have ht2 : t ∈ (expandState c m k s hist).2 ++ rest := hperm2.subset ht
  rcases List.mem_append.1 ht2 with hex | hrest
  · have hfresh : hist t = none := by
      rcases foldl_stepBody_pushes_fresh _ _ hex with h | h
      · cases h
      · exact h
    have hrec : ((expandState c m k s hist).1 t).isSome = true :=
      foldl_stepBody_pushes_recorded _ _ (by intro u hu; cases hu) t hex
    refine ⟨Or.inr hrec, ?_⟩
    rw [Option.isSome_iff_exists] at hrec
    obtain ⟨p, hp⟩ := hrec
    rcases foldl_stepBody_fst_cases _ _ hp with hold | ⟨load, hmem, hok, htn, _⟩
    · dsimp only at hold
      rw [hfresh] at hold; cases hold
    · rw [htn]; exact nextStateOf_inU hU hmem
  · have htq : t ∈ queue := hperm.mem_iff.mpr (List.mem_cons_of_mem _ hrest)
    obtain ⟨hd, hiu⟩ := hQ t htq
    refine ⟨?_, hiu⟩
    rcases hd with h | h
    · exact Or.inl h
    · exact Or.inr (foldl_stepBody_isSome_mono _ _ h)

theorem expand_ClosedInv {c m k : Int} {push : List State → State → List State}
    (hpush : ∀ q s, (push q s).Perm (s :: q))
    {s : State} {hist : Hist} {queue rest : List State}
    (hC : ClosedInv c m k hist queue)
    (hperm : queue.Perm (s :: rest))
    (hU : inU c m s)
    (hgoal : goalTest s = false) :
    ClosedInv c m k (expandState c m k s hist).1
      ((expandState c m k s hist).2.foldl push rest) := by
  intro t htd
  have hperm2 := foldl_push_perm hpush (expandState c m k s hist).2 rest
  by_cases hds : (hist t).isSome = true ∨ t = initState c m
  · rcases hC t hds with hmemQ | ⟨hng, hcl⟩
    · have hmem2 : t ∈ s :: rest := hperm.subset hmemQ
      rcases List.mem_cons.1 hmem2 with rfl | hres
      · right
        refine ⟨hgoal, ?_⟩
        intro mv hl
        obtain ⟨hdir, hmem, hok⟩ := (legalMove_iff_load hU).mp hl
        have hin := foldl_stepBody_complete (boatLoads c m k t)
          (hist, ([] : List State)) hmem hok
        have hmv : nextStateOf c m t (mv.cannibals_boat, mv.missionaries_boat) =
            moveStep t mv := by
          rw [nextStateOf_eq_moveStep]
          obtain ⟨a, b, r⟩ := mv
          simp only at hdir
          rw [hdir]
        rw [← hmv]
        exact hin
      · left
        exact hperm2.mem_iff.mpr (List.mem_append_right _ hres)
    · right
      exact ⟨hng, fun mv hl => foldl_stepBody_isSome_mono _ _ (hcl mv hl)⟩
  · push_neg at hds
    obtain ⟨hnot, hne⟩ := hds
    have hsome : ((expandState c m k s hist).1 t).isSome = true := by
      rcases htd with h | h
      · exact h
      · exact absurd h hne
    rcases foldl_stepBody_new_mem _ _ hsome with h | h
    · exact absurd h hnot
    · left
      exact hperm2.mem_iff.mpr (List.mem_append_left _ h)

theorem closed_empty_not_solvable {c m k : Int} (hist : Hist)
    (hcl : ∀ t, ((hist t).isSome = true ∨ t = initState c m) →
      goalTest t = false ∧
        ∀ mv, legalMove c m k t mv = true → (hist (moveStep t mv)).isSome = true) :
    ¬ Solvable c m k := by
  intro hS
  obtain ⟨p, hp⟩ := hS
  suffices h : ∀ (q : List BoatMovement) (s : State),
      ((hist s).isSome = true ∨ s = initState c m) →
      replayLegal c m k s q = some goalState → False by
    exact h p (initState c m) (Or.inr rfl) hp
  intro q
  induction q with
  | nil =>
    intro s hd hrep
    have hs : s = goalState := Option.some_inj.mp hrep
    have hgt := (hcl s hd).1
    rw [hs] at hgt
    have hgt2 : goalTest goalState = true := rfl
    rw [hgt2] at hgt
    cases hgt
  | cons mv rest ihp =>
    intro s hd hrep
    simp only [replayLegal] at hrep
    by_cases hl : legalMove c m k s mv = true
    · rw [if_pos hl] at hrep
      have hnext := (hcl s hd).2 mv hl
      exact ihp (moveStep s mv) (Or.inl hnext) hrep
    · rw [if_neg hl] at hrep; cases hrep

theorem loop_sound {push : List State → State → List State}
    {pop : List State → Option (State × List State)}
    (hpush : ∀ q s, (push q s).Perm (s :: q))
    (hpopp : ∀ q s q2, pop q = some (s, q2) → q.Perm (s :: q2))
    {c m k : Int} :
    ∀ (fuel : Nat) (hist : Hist) (queue : List State),
      HistSound c m k hist → QueueInv c m hist queue →
      ∀ p, solveLoop push pop c m k fuel hist queue = some (some p) →
        replayLegal c m k (initState c m) p = some goalState := by
  intro fuel
  induction fuel with
  | zero => intro hist queue _ _ p h; cases h
  | succ fuel ih =>
    intro hist queue hHS hQ p h
    cases hpop : pop queue with
    | none => simp [solveLoop, hpop] at h
    | some pr =>
      obtain ⟨s, rest⟩ := pr
      simp only [solveLoop, hpop] at h
      have hperm := hpopp queue s rest hpop
      obtain ⟨hd, hU⟩ := hQ s (hperm.mem_iff.mpr (List.mem_cons_self s rest))
      by_cases hg : goalTest s = true
      · rw [if_pos hg] at h
        have hs : hist s = some p := Option.some_inj.mp h
        have hrep := hHS s p hs
        rw [goalTest_iff.mp hg] at hrep
        exact hrep
      · rw [if_neg hg] at h
        have hd2 : s = initState c m ∨ (hist s).isSome = true := hd
        exact ih (expandState c m k s hist).1
          ((expandState c m k s hist).2.foldl push rest)
          (expand_HistSound hHS hd2 hU)
          (expand_QueueInv hpush hQ hperm hU) p h

theorem loop_term {push : List State → State → List State}
    {pop : List State → Option (State × List State)}
    (hpush : ∀ q s, (push q s).Perm (s :: q))
    (hpopp : ∀ q s q2, pop q = some (s, q2) → q.Perm (s :: q2))
    {c m k : Int} :
    ∀ (fuel : Nat) (hist : Hist) (queue : List State),
      QueueInv c m hist queue →
      queue.length + 2 * freeCount c m hist + 1 ≤ fuel →
      ∃ r, solveLoop push pop c m k fuel hist queue = some r := by
  intro fuel
  induction fuel with
  | zero => intro hist queue _ hle; omega
  | succ fuel ih =>
    intro hist queue hQ hle
    cases hpop : pop queue with
    | none => exact ⟨none, by simp [solveLoop, hpop]⟩
    | some pr =>
      obtain ⟨s, rest⟩ := pr
      have hperm := hpopp queue s rest hpop
      obtain ⟨hd, hU⟩ := hQ s (hperm.mem_iff.mpr (List.mem_cons_self s rest))
      by_cases hg : goalTest s = true
      · exact ⟨hist s, by simp [solveLoop, hpop, hg]⟩
      · have hlen : queue.length = rest.length + 1 := by
          have h2 := hperm.length_eq
          simpa using h2
        have hfc : freeCount c m hist =
            freeCount c m (expandState c m k s hist).1 +
              (expandState c m k s hist).2.length := by
          have h2 := foldl_stepBody_freeCount hU (boatLoads c m k s)
            (hist, ([] : List State)) (fun load hl => hl)
          dsimp only at h2
          simpa using h2
        have hql : ((expandState c m k s hist).2.foldl push rest).length =
            (expandState c m k s hist).2.length + rest.length := by
          have h2 := (foldl_push_perm hpush (expandState c m k s hist).2 rest).length_eq
          simpa using h2
        obtain ⟨r, hr⟩ := ih (expandState c m k s hist).1
          ((expandState c m k s hist).2.foldl push rest)
          (expand_QueueInv hpush hQ hperm hU)
          (by omega)
        refine ⟨r, ?_⟩
        simp only [solveLoop, hpop, if_neg hg]
        exact hr

theorem loop_complete {push : List State → State → List State}
    {pop : List State → Option (State × List State)}
    (hpush : ∀ q s, (push q s).Perm (s :: q))
    (hpopn : ∀ q, pop q = none → q = [])
    (hpopp : ∀ q s q2, pop q = some (s, q2) → q.Perm (s :: q2))
    {c m k : Int} :
    ∀ (fuel : Nat) (hist : Hist) (queue : List State),
      QueueInv c m hist queue → ClosedInv c m k hist queue →
      solveLoop push pop c m k fuel hist queue = some none →
      ¬ Solvable c m k := by
  intro fuel
  induction fuel with
  | zero => intro hist queue _ _ h; cases h
  | succ fuel ih =>
    intro hist queue hQ hC h
    cases hpop : pop queue with
    | none =>
      have hqe : queue = [] := hpopn queue hpop
      subst hqe
      refine closed_empty_not_solvable hist ?_
      intro t htd
      rcases hC t htd with hmem | hcl
      · cases hmem
      · exact hcl
    | some pr =>
      obtain ⟨s, rest⟩ := pr
      simp only [solveLoop, hpop] at h
      have hperm := hpopp queue s rest hpop
      obtain ⟨hd, hU⟩ := hQ s (hperm.mem_iff.mpr (List.mem_cons_self s rest))
      by_cases hg : goalTest s = true
      · rw [if_pos hg] at h
        have hs : hist s = none := Option.some_inj.mp h
        rcases hd with hinit | hsome
        · rw [hinit, goalTest_init] at hg; cases hg
        · rw [hs] at hsome; cases hsome
      · rw [if_neg hg] at h
        have hg2 : goalTest s = false := by
          rcases Bool.eq_false_or_eq_true (goalTest s) with h2 | h2
          · exact absurd h2 hg
          · exact h2
        exact ih (expandState c m k s hist).1
          ((expandState c m k s hist).2.foldl push rest)
          (expand_QueueInv hpush hQ hperm hU)
          (expand_ClosedInv hpush hC hperm hU hg2) h

theorem initHistSound (c m k : Int) : HistSound c m k emptyHist := by
  intro t p h
  simp [emptyHist] at h

theorem initQueueInv {push : List State → State → List State}
    (hpush : ∀ q s, (push q s).Perm (s :: q))
    {c m : Int} (hc : 0 ≤ c) (hm : 0 ≤ m) :
    QueueInv c m emptyHist (push [] (initState c m)) := by
  intro t ht
  have h2 : t ∈ [initState c m] := (hpush [] (initState c m)).subset ht
  rw [List.mem_singleton] at h2
  subst h2
  exact ⟨Or.inl rfl, hc, le_refl c, hm, le_refl m⟩

theorem initClosedInv {push : List State → State → List State}
    (hpush : ∀ q s, (push q s).Perm (s :: q)) (c m k : Int) :
    ClosedInv c m k emptyHist (push [] (initState c m)) := by
  intro t htd
  rcases htd with hsome | heq
  · simp [emptyHist] at hsome
  · left
    rw [heq]
    exact ((hpush [] (initState c m)).mem_iff).mpr (List.mem_singleton.mpr rfl)

theorem initFuel {push : List State → State → List State}
    (hpush : ∀ q s, (push q s).Perm (s :: q)) (c m : Int) :
    (push [] (initState c m)).length + 2 * freeCount c m emptyHist + 1 ≤ fuelBound c m := by
  have hlen : (push [] (initState c m)).length = 1 := by
    have h2 := (hpush [] (initState c m)).length_eq
    simpa using h2
  have hfree := freeCount_le c m emptyHist
  unfold fuelBound
  omega

theorem solveWith_path {push : List State → State → List State}
    {pop : List State → Option (State × List State)}
    (hpush : ∀ q s, (push q s).Perm (s :: q))
    (hpopp : ∀ q s q2, pop q = some (s, q2) → q.Perm (s :: q2))
    {c m k : Int} (hc : 0 ≤ c) (hm : 0 ≤ m)
    {p : List BoatMovement} (h : solveWith push pop c m k = some p) :
    replayLegal c m k (initState c m) p = some goalState := by
  have h2 : solveLoop push pop c m k (fuelBound c m) emptyHist
      (push [] (initState c m)) = some (some p) := by
    unfold solveWith at h
    cases hl : solveLoop push pop c m k (fuelBound c m) emptyHist
        (push [] (initState c m)) with
    | none => rw [hl] at h; cases h
    | some r =>
      rw [hl] at h
      simp only [Option.join, Option.some_bind, id_eq] at h
      rw [h]
  exact loop_sound hpush hpopp (fuelBound c m) emptyHist (push [] (initState c m))
    (initHistSound c m k) (initQueueInv hpush hc hm) p h2

theorem solveWith_iff {push : List State → State → List State}
    {pop : List State → Option (State × List State)}
    (hpush : ∀ q s, (push q s).Perm (s :: q))
    (hpopn : ∀ q, pop q = none → q = [])
    (hpopp : ∀ q s q2, pop q = some (s, q2) → q.Perm (s :: q2))
    {c m k : Int} (hc : 0 ≤ c) (hm : 0 ≤ m) :
    (∃ p, solveWith push pop c m k = some p) ↔ Solvable c m k := by
  constructor
  · rintro ⟨p, hp⟩
    exact ⟨p, solveWith_path hpush hpopp hc hm hp⟩
  · intro hS
    by_contra hno
    push_neg at hno
    obtain ⟨r, hr⟩ := loop_term hpush hpopp (fuelBound c m) emptyHist
      (push [] (initState c m)) (initQueueInv hpush hc hm) (initFuel hpush c m)
    cases r with
    | none =>
      exact (loop_complete hpush hpopn hpopp (fuelBound c m) emptyHist
        (push [] (initState c m)) (initQueueInv hpush hc hm)
        (initClosedInv hpush c m k) hr) hS
    | some p =>
      apply hno p
      unfold solveWith
      rw [hr]
      rfl

theorem solveWith_none_iff {push : List State → State → List State}
    {pop : List State → Option (State × List State)}
    (hpush : ∀ q s, (push q s).Perm (s :: q))
    (hpopn : ∀ q, pop q = none → q = [])
    (hpopp : ∀ q s q2, pop q = some (s, q2) → q.Perm (s :: q2))
    {c m k : Int} (hc : 0 ≤ c) (hm : 0 ≤ m) :
    solveWith push pop c m k = none ↔ ¬ Solvable c m k := by
  rw [← solveWith_iff hpush hpopn hpopp hc hm]
  cases h : solveWith push pop c m k with
  | none => simp [h]
  | some p => simp [h]

/-- C1: for non-negative inputs and either frontier discipline, a returned
path replays from the initial configuration through configurations whose
banks and boat load all satisfy the safety predicate, and ends in the goal
configuration `(0, 0, boat on the right)`. -/
theorem claim_C1_path_validity (c m k : Int) (hc : 0 ≤ c) (hm : 0 ≤ m) (_hk : 0 ≤ k)
    (p : List BoatMovement)
    (h : solveStack c m k = some p ∨ solveHeap c m k = some p) :
    (∀ x ∈ replayStates (initState c m) p, moveSafe c m x.1 x.2 = true) ∧
      replayFinal (initState c m) p = goalState := by
  have hrep : replayLegal c m k (initState c m) p = some goalState := by
    rcases h with h | h
    · exact solveWith_path stackPush_perm (fun q s q2 h2 => stackPop_perm h2) hc hm h
    · exact solveWith_path heapPush_perm (fun q s q2 h2 => heapPop_perm h2) hc hm h
  exact ⟨replayLegal_safe c m k p _ _ hrep, replayLegal_final c m k p _ _ hrep⟩

theorem claim_C1_witness :
    (∀ x ∈ replayStates (initState 3 3) ((solveStack 3 3 2).getD []),
        moveSafe 3 3 x.1 x.2 = true) ∧
      replayFinal (initState 3 3) ((solveStack 3 3 2).getD []) = goalState :=
  claim_C1_path_validity 3 3 2 (by decide) (by decide) (by decide) _ (Or.inl (by decide))

/-- C4: the safety predicate is total and returns true exactly when, on each
of the left bank, the right bank and the boat, the cannibals do not outnumber
the missionaries or the missionaries are absent; in particular it accepts
`(1,2,1,2,1,1)` and rejects `(2,1,2,1,1,1)`. -/
theorem claim_C4_safety_predicate :
    (∀ a b d e f g : Int, 0 ≤ a → 0 ≤ b → 0 ≤ d → 0 ≤ e → 0 ≤ f → 0 ≤ g →
      (validate_cannibal_missionary_balance ⟨a, b, d, e, f, g⟩ = true ↔
        ((a ≤ b ∨ b = 0) ∧ (d ≤ e ∨ e = 0) ∧ (f ≤ g ∨ g = 0)))) ∧
    validate_cannibal_missionary_balance ⟨1, 2, 1, 2, 1, 1⟩ = true ∧
    validate_cannibal_missionary_balance ⟨2, 1, 2, 1, 1, 1⟩ = false := by
  refine ⟨?_, by decide, by decide⟩
  intro a b d e f g _ _ _ _ _ _
  exact validate_iff ⟨a, b, d, e, f, g⟩

theorem claim_C4_witness :
    validate_cannibal_missionary_balance ⟨1, 2, 1, 2, 1, 1⟩ = true ↔
      (((1 : Int) ≤ 2 ∨ (2 : Int) = 0) ∧ ((1 : Int) ≤ 2 ∨ (2 : Int) = 0) ∧
        ((1 : Int) ≤ 1 ∨ (1 : Int) = 0)) :=
  claim_C4_safety_predicate.1 1 2 1 2 1 1 (by decide) (by decide) (by decide) (by decide)
    (by decide) (by decide)

/-- C5: the pop of the priority frontier removes from the frontier an element
whose left-bank population total (`score`) is smallest among all elements
currently in the frontier. -/
theorem claim_C5_priority_pop (q : List State) (s : State) (q2 : List State)
    (h : heapPop q = some (s, q2)) :
    q.Perm (s :: q2) ∧
      ∀ t ∈ q, score s.cannibals_left s.missionaries_left ≤
        score t.cannibals_left t.missionaries_left :=
  ⟨heapPop_perm h, heapPop_min h⟩

theorem claim_C5_witness :
    ([⟨2, 0, true⟩, ⟨0, 1, true⟩] : List State).Perm
        (⟨0, 1, true⟩ :: [⟨2, 0, true⟩]) ∧
      ∀ t ∈ ([⟨2, 0, true⟩, ⟨0, 1, true⟩] : List State),
        score (0 : Int) (1 : Int) ≤ score t.cannibals_left t.missionaries_left :=
  claim_C5_priority_pop [⟨2, 0, true⟩, ⟨0, 1, true⟩] ⟨0, 1, true⟩ [⟨2, 0, true⟩] (by decide)

/-- C2: for non-negative inputs and each frontier discipline, `solve` returns
a path exactly when some finite sequence of legal boat trips moves everyone
from the initial configuration to the goal, and returns `None` exactly when
no such sequence exists. -/
theorem claim_C2_solve_iff_solvable (c m k : Int) (hc : 0 ≤ c) (hm : 0 ≤ m)
    (_hk : 0 ≤ k) :
    ((∃ p, solveStack c m k = some p) ↔ Solvable c m k) ∧
    ((∃ p, solveHeap c m k = some p) ↔ Solvable c m k) ∧
    (solveStack c m k = none ↔ ¬ Solvable c m k) ∧
    (solveHeap c m k = none ↔ ¬ Solvable c m k) :=
  ⟨solveWith_iff stackPush_perm (fun q h => stackPop_none h)
      (fun q s q2 h => stackPop_perm h) hc hm,
    solveWith_iff heapPush_perm (fun q h => heapPop_eq_none h)
      (fun q s q2 h => heapPop_perm h) hc hm,
    solveWith_none_iff stackPush_perm (fun q h => stackPop_none h)
      (fun q s q2 h => stackPop_perm h) hc hm,
    solveWith_none_iff heapPush_perm (fun q h => heapPop_eq_none h)
      (fun q s q2 h => heapPop_perm h) hc hm⟩

theorem claim_C2_witness :
    ((∃ p, solveStack 3 3 2 = some p) ↔ Solvable 3 3 2) ∧
    ((∃ p, solveHeap 3 3 2 = some p) ↔ Solvable 3 3 2) ∧
    (solveStack 3 3 2 = none ↔ ¬ Solvable 3 3 2) ∧
    (solveHeap 3 3 2 = none ↔ ¬ Solvable 3 3 2) :=
  claim_C2_solve_iff_solvable 3 3 2 (by decide) (by decide) (by decide)

/-- C3: for fixed non-negative inputs, the stack discipline and the priority
discipline agree on solvability: both return a path or both return `None`. -/
theorem claim_C3_agreement (c m k : Int) (hc : 0 ≤ c) (hm : 0 ≤ m) (_hk : 0 ≤ k) :
    (solveStack c m k).isSome = (solveHeap c m k).isSome := by
  have h1 := solveWith_iff stackPush_perm (fun q h => stackPop_none h)
    (fun q s q2 h => stackPop_perm h) (c := c) (m := m) (k := k) hc hm
  have h2 := solveWith_iff heapPush_perm (fun q h => heapPop_eq_none h)
    (fun q s q2 h => heapPop_perm h) (c := c) (m := m) (k := k) hc hm
  have hiff : (∃ p, solveStack c m k = some p) ↔ (∃ p, solveHeap c m k = some p) :=
    h1.trans h2.symm
  rw [← Option.isSome_iff_exists, ← Option.isSome_iff_exists] at hiff
  cases h3 : (solveStack c m k).isSome <;> cases h4 : (solveHeap c m k).isSome <;>
    simp_all

theorem claim_C3_witness :
    (solveStack 3 3 2).isSome = (solveHeap 3 3 2).isSome :=
  claim_C3_agreement 3 3 2 (by decide) (by decide) (by decide)

/-- C6 (counterexample): with no cannibals, no missionaries and capacity 1,
both disciplines return `None`, not `Some` of the empty move sequence. -/
theorem claim_C6_counterexample :
    solveStack 0 0 1 ≠ some [] ∧ solveHeap 0 0 1 ≠ some [] ∧
      solveStack 0 0 1 = none ∧ solveHeap 0 0 1 = none := by decide

/-- C6 (amended): for zero totals and any capacity `k ≥ 1`, `solve` under
either discipline returns `None`: the goal needs the boat on the right, the
boat starts on the left, and an empty crossing is forbidden, so the initial
configuration has no legal successor and never satisfies the goal test. -/
theorem claim_C6_amended (k : Int) (hk : 1 ≤ k) :
    solveStack 0 0 k = none ∧ solveHeap 0 0 k = none := by
  have hns : ¬ Solvable 0 0 k := by
    rintro ⟨p, hp⟩
    cases p with
    | nil =>
      have h2 : initState 0 0 = goalState := Option.some_inj.mp hp
      exact init_ne_goal 0 0 h2
    | cons mv rest =>
      simp only [replayLegal] at hp
      by_cases hl : legalMove 0 0 k (initState 0 0) mv = true
      · obtain ⟨hdir, h1, h2, h3, h4, h5, h6⟩ := legalMove_parts hl
        simp only [initState, if_true] at h5 h6
        omega
      · rw [if_neg hl] at hp; cases hp
  have hk0 : (0 : Int) ≤ 0 := le_refl 0
  exact ⟨(solveWith_none_iff stackPush_perm (fun q h => stackPop_none h)
      (fun q s q2 h => stackPop_perm h) hk0 hk0).mpr hns,
    (solveWith_none_iff heapPush_perm (fun q h => heapPop_eq_none h)
      (fun q s q2 h => heapPop_perm h) hk0 hk0).mpr hns⟩

theorem claim_C6_witness :
    (1 : Int) ≤ 1 ∧ (solveStack 0 0 1 = none ∧ solveHeap 0 0 1 = none) :=
  ⟨le_refl 1, claim_C6_amended 1 (le_refl 1)⟩

/-- C8: for non-negative inputs and either discipline, the search loop
terminates within `fuelBound` iterations, a bound linear in
`(cannibals + 1) * (missionaries + 1)`: each configuration enters the
frontier at most once per visited-set entry (plus the initial seeding). -/
theorem claim_C8_termination (c m k : Int) (hc : 0 ≤ c) (hm : 0 ≤ m) (_hk : 0 ≤ k) :
    (∃ r, solveLoop stackPush stackPop c m k (fuelBound c m) emptyHist
        (stackPush [] (initState c m)) = some r) ∧
    (∃ r, solveLoop heapPush heapPop c m k (fuelBound c m) emptyHist
        (heapPush [] (initState c m)) = some r) :=
  ⟨loop_term stackPush_perm (fun q s q2 h => stackPop_perm h) (fuelBound c m) emptyHist
      (stackPush [] (initState c m)) (initQueueInv stackPush_perm hc hm)
      (initFuel stackPush_perm c m),
    loop_term heapPush_perm (fun q s q2 h => heapPop_perm h) (fuelBound c m) emptyHist
      (heapPush [] (initState c m)) (initQueueInv heapPush_perm hc hm)
      (initFuel heapPush_perm c m)⟩

theorem claim_C8_witness :
    (∃ r, solveLoop stackPush stackPop 3 3 2 (fuelBound 3 3) emptyHist
        (stackPush [] (initState 3 3)) = some r) ∧
    (∃ r, solveLoop heapPush heapPop 3 3 2 (fuelBound 3 3) emptyHist
        (heapPush [] (initState 3 3)) = some r) :=
  claim_C8_termination 3 3 2 (by decide) (by decide) (by decide)

/-- C9: every move of a returned path carries at least one person and
respects the boat capacity: non-negative aboard counts, a non-empty load,
`cannibals_aboard ≤ boat_capacity` and
`missionaries_aboard ≤ boat_capacity - cannibals_aboard`. -/
theorem claim_C9_load_bounds (c m k : Int) (hc : 0 ≤ c) (hm : 0 ≤ m) (_hk : 0 ≤ k)
    (p : List BoatMovement)
    (h : solveStack c m k = some p ∨ solveHeap c m k = some p) :
    ∀ mv ∈ p, 0 ≤ mv.cannibals_boat ∧ 0 ≤ mv.missionaries_boat ∧
      1 ≤ mv.cannibals_boat + mv.missionaries_boat ∧
      mv.cannibals_boat ≤ k ∧ mv.missionaries_boat ≤ k - mv.cannibals_boat := by
  have hrep : replayLegal c m k (initState c m) p = some goalState := by
    rcases h with h | h
    · exact solveWith_path stackPush_perm (fun q s q2 h2 => stackPop_perm h2) hc hm h
    · exact solveWith_path heapPush_perm (fun q s q2 h2 => heapPop_perm h2) hc hm h
  intro mv hmv
  obtain ⟨h1, h2, h3, h4⟩ := replayLegal_loads c m k p _ _ hrep mv hmv
  exact ⟨h1, h2, h3, by omega, by omega⟩

theorem claim_C9_witness :
    solveHeap 3 3 2 = some ((solveHeap 3 3 2).getD []) ∧
      ∀ mv ∈ (solveHeap 3 3 2).getD [], 0 ≤ mv.cannibals_boat ∧
        0 ≤ mv.missionaries_boat ∧
        1 ≤ mv.cannibals_boat + mv.missionaries_boat ∧
        mv.cannibals_boat ≤ 2 ∧ mv.missionaries_boat ≤ 2 - mv.cannibals_boat :=
  ⟨by decide,
    claim_C9_load_bounds 3 3 2 (by decide) (by decide) (by decide) _ (Or.inr (by decide))⟩

/-- C10: in every returned path the direction flags strictly alternate
starting from left-to-right, the last move is left-to-right, and the path
has odd length. -/
theorem claim_C10_alternation (c m k : Int) (hc : 0 ≤ c) (hm : 0 ≤ m) (_hk : 0 ≤ k)
    (p : List BoatMovement)
    (h : solveStack c m k = some p ∨ solveHeap c m k = some p) :
    alternatesFrom true p = true ∧
      (∀ mv, p.head? = some mv → mv.move_right = true) ∧
      (∀ mv, p.getLast? = some mv → mv.move_right = true) ∧
      Odd p.length := by
  have hrep : replayLegal c m k (initState c m) p = some goalState := by
    rcases h with h | h
    · exact solveWith_path stackPush_perm (fun q s q2 h2 => stackPop_perm h2) hc hm h
    · exact solveWith_path heapPush_perm (fun q s q2 h2 => heapPop_perm h2) hc hm h
  have halt : alternatesFrom true p = true :=
    replayLegal_alternates c m k p (initState c m) goalState hrep
  have hfin : replayFinal (initState c m) p = goalState :=
    replayLegal_final c m k p _ _ hrep
  have hodd : Odd p.length := by
    have hb := replayFinal_boat p (initState c m)
    rw [hfin] at hb
    by_cases hp2 : p.length % 2 = 0
    · rw [if_pos hp2] at hb
      cases hb
    · rw [Nat.odd_iff]
      omega
  refine ⟨halt, ?_, ?_, hodd⟩
  · intro mv hmv
    cases p with
    | nil => cases hmv
    | cons a rest =>
      have ha : a = mv := Option.some_inj.mp hmv
      simp only [alternatesFrom, Bool.and_eq_true, beq_iff_eq] at halt
      rw [← ha]
      exact halt.1
  · intro mv hmv
    rcases List.eq_nil_or_concat' p with rfl | ⟨q, b, rfl⟩
    · cases hmv
    · obtain ⟨u, hu, hl, ht⟩ := replayLegal_concat hrep
      have hb : b = mv := by
        rw [List.getLast?_append_cons] at hmv
        exact Option.some_inj.mp hmv
      have hbl : goalState.boat_left = !u.boat_left := by
        rw [ht, moveStep_boat]
      have hub : u.boat_left = true := by
        rcases Bool.eq_false_or_eq_true u.boat_left with h2 | h2
        · exact h2
        · rw [h2] at hbl
          cases hbl
      rw [← hb]
      rw [legalMove_dir hl, hub]

theorem claim_C10_witness :
    alternatesFrom true ((solveStack 3 3 2).getD []) = true ∧
      (∀ mv, ((solveStack 3 3 2).getD []).head? = some mv → mv.move_right = true) ∧
      (∀ mv, ((solveStack 3 3 2).getD []).getLast? = some mv → mv.move_right = true) ∧
      Odd ((solveStack 3 3 2).getD []).length :=
  claim_C10_alternation 3 3 2 (by decide) (by decide) (by decide) _ (Or.inl (by decide))

/-- C7: along any run of the search loop the recorded history of a
configuration is never replaced (so each configuration is inserted into the
visited map at most once, first discovery wins), and within one expansion
every configuration emitted for the frontier is already recorded in the
visited map at the moment it is pushed. -/
theorem claim_C7_visited_once :
    (∀ (push : List State → State → List State)
        (pop : List State → Option (State × List State)) (c m k : Int)
        (cfg cfg2 : Hist × List State),
        Relation.ReflTransGen (SearchStep push pop c m k) cfg cfg2 →
        ∀ t p, cfg.1 t = some p → cfg2.1 t = some p) ∧
    (∀ (c m k : Int) (s : State) (hist : Hist),
        ∀ t ∈ (expandState c m k s hist).2,
          ((expandState c m k s hist).1 t).isSome = true) := by
  constructor
  · intro push pop c m k cfg cfg2 hsteps
    induction hsteps with
    | refl => intro t p h; exact h
    | tail hab hbc ih =>
      intro t p h
      obtain ⟨s, rest, hpop, hg, heq⟩ := hbc
      rw [heq]
      exact foldl_stepBody_mono _ _ (ih t p h)
  · intro c m k s hist t ht
    exact foldl_stepBody_pushes_recorded _ _ (by intro u hu; cases hu) t ht

theorem claim_C7_witness :
    ((expandState 3 3 2 (initState 3 3) c7Hist).1 goalState = some [] ∧
      ∀ t ∈ (expandState 3 3 2 (initState 3 3) emptyHist).2,
        ((expandState 3 3 2 (initState 3 3) emptyHist).1 t).isSome = true) := by
  constructor
  · exact claim_C7_visited_once.1 stackPush stackPop 3 3 2
      (c7Hist, [initState 3 3])
      ((expandState 3 3 2 (initState 3 3) c7Hist).1,
        (expandState 3 3 2 (initState 3 3) c7Hist).2.foldl stackPush [])
      (Relation.ReflTransGen.single ⟨initState 3 3, [], rfl, by decide, rfl⟩)
      goalState [] (by decide)
  · exact claim_C7_visited_once.2 3 3 2 (initState 3 3) emptyHist
